import Mathlib

/-!
Verification of the `prime_bag` crate: a multiset of element indices encoded as the
product of the primes assigned to its members.  The embedding mirrors
`src/helpers.rs`, `src/lib.rs`, `src/iter.rs` and `src/group_iter.rs`.

Conventions of the embedding:
* The Rust bag types (`PrimeBag8` … `PrimeBag128`) are newtypes around a nonzero
  unsigned integer plus a zero-size phantom element tag; a bag is therefore modelled
  by its backing value, a `Nat`, together with the bit width `w` of the backing type
  passed explicitly to every operation that can overflow.  `maxVal w = 2 ^ w - 1`
  is the largest representable value.
* Elements are identified with their prime indices: the crate only ever sees an
  element through the external bijection `to_prime_index` / `from_prime_index`.
* Machine arithmetic is `Nat` arithmetic with explicit overflow checks, exactly
  where the source performs `checked_*` operations; all other source arithmetic
  acts on values that cannot overflow (table entries are at most 131).
-/

set_option maxRecDepth 10000

namespace PrimeBagSpec

/-- Number of primes in the table (`NUM_PRIMES`, default configuration without the
`primes256` feature). -/
def NUM_PRIMES : Nat := 32

/-- The compile-time prime sieve of `Helpers*::PRIMES` (`helpers.rs`): starting from
candidate 2, append each candidate that no previously found prime divides, until
`NUM_PRIMES` primes are found.  `fuel` bounds the candidates examined; the source
`while` loop needs no bound because it stops once the array is full, which happens
at candidate 131 for the 32-entry table.  Every value involved is at most 131, so
the per-width `u8`/…/`u128` sieves produce the same numbers (no overflow or
saturation is ever reached) and one table serves every width. -/
def sieve : Nat → Nat → List Nat → List Nat
  | 0, _, acc => acc
  | fuel + 1, current, acc =>
    if acc.length < NUM_PRIMES then
      if acc.all (fun p => current % p != 0) then
        sieve fuel (current + 1) (acc ++ [current])
      else
        sieve fuel (current + 1) acc
    else acc

/-- The prime table. -/
def PRIMES : List Nat := sieve 200 2 []

/-- `Helpers*::get_prime`: the prime at index `i`, or `none` past the table end. -/
def get_prime (i : Nat) : Option Nat :=
  if h : i < PRIMES.length then some (PRIMES.get ⟨i, h⟩) else none

/-- `Helpers*::div_exact`: `x / other` when the division is exact; the quotient is
rebuilt with `NonZeroUx::new`, which also yields `None` for a zero quotient (the
source notes this cannot happen for its nonzero inputs). -/
def div_exact (x other : Nat) : Option Nat :=
  if x % other == 0 then
    if x / other == 0 then none else some (x / other)
  else none

/-- `Helpers*::is_multiple`: whether `other` divides `x`. -/
def is_multiple (x other : Nat) : Bool := x % other == 0

/-- `Helpers*::gcd` delegates to the external `gcd` crate's binary GCD; its contract
is the greatest common divisor, modelled by `Nat.gcd`. -/
def gcd (lhs rhs : Nat) : Nat := Nat.gcd lhs rhs

/-- Largest value representable by the `w`-bit unsigned backing type. -/
def maxVal (w : Nat) : Nat := 2 ^ w - 1

/-- `NonZeroUx::checked_mul` at width `w`: the product unless it overflows. -/
def checked_mul (w a b : Nat) : Option Nat :=
  if a * b ≤ maxVal w then some (a * b) else none

/-- `NonZeroUx::checked_pow` at width `w`.  Rust computes the power by
square-and-multiply over checked multiplications; for a base ≥ 1 every
intermediate value is bounded by the full power, so the call succeeds exactly when
`a ^ n` itself fits the width. -/
def checked_pow (w a n : Nat) : Option Nat :=
  if a ^ n ≤ maxVal w then some (a ^ n) else none

/-- `Helpers*::lcm`: divide `lhs` by the GCD, then `rhs * divided`, failing when the
multiplication overflows the width. -/
def lcm (w lhs rhs : Nat) : Option Nat :=
  match div_exact lhs (gcd lhs rhs) with
  | none => none
  | some divided => checked_mul w rhs divided

/-- The loop of `count_instances` (`lib.rs`): how many times `p` divides `b` exactly
(`while let Some(new_b) = div_exact(b, p)`).  The `2 ≤ p ∧ 1 ≤ b` guard holds at
every call site (`p` is a table prime, `b` a nonzero backing value); it only makes
the recursion well-founded. -/
def divCount (b p : Nat) : Nat :=
  if h : 2 ≤ p ∧ 1 ≤ b ∧ b % p = 0 then
    divCount (b / p) p + 1
  else 0
termination_by b
decreasing_by exact Nat.div_lt_self h.2.1 h.1

/-- `u*::trailing_zeros` of a nonzero value: the number of trailing zero bits,
i.e. the number of factors of 2. -/
def trailingZeros (b : Nat) : Nat := divCount b 2

/-- `NonZeroUx::try_from(x).unwrap_or(NonZeroUx::MIN)`: keep `x` unless it is 0. -/
def toNonZero (x : Nat) : Nat := if x == 0 then 1 else x

/-- `try_extend` (`lib.rs`): fold of checked prime multiplications over the input
sequence, threading the bag value; any failure aborts the whole attempt. -/
def try_extend (w : Nat) (b : Nat) : List Nat → Option Nat
  | [] => some b
  | e :: rest =>
    match get_prime e with
    | none => none
    | some p =>
      match checked_mul w b p with
      | none => none
      | some b2 => try_extend w b2 rest

/-- `try_from_iter`: `Self::default().try_extend(iter)`; the default bag is 1. -/
def try_from_iter (w : Nat) (xs : List Nat) : Option Nat := try_extend w 1 xs

/-- `count_instances` (`lib.rs`): trailing-zero count for index 0, otherwise the
number of exact divisions by the element's prime; 0 when the index is out of
range. -/
def count_instances (b e : Nat) : Nat :=
  if e == 0 then trailingZeros b
  else
    match get_prime e with
    | some p => divCount b p
    | none => 0

/-- `contains` (`lib.rs`): divisibility by the element's prime; `false` when the
index has no table entry. -/
def contains (b e : Nat) : Bool :=
  match get_prime e with
  | some p => is_multiple b p
  | none => false

/-- `contains_at_least` (`lib.rs`): divisibility by the checked `n`-th power of the
element's prime; `false` when the index is out of range or the power overflows. -/
def contains_at_least (w b e n : Nat) : Bool :=
  match get_prime e with
  | some p =>
    match checked_pow w p n with
    | some q => is_multiple b q
    | none => false
  | none => false

/-- `try_insert`: multiply by the element's prime, checked. -/
def try_insert (w b e : Nat) : Option Nat :=
  match get_prime e with
  | none => none
  | some p => checked_mul w b p

/-- `try_remove`: divide out one copy of the element's prime, exactly. -/
def try_remove (b e : Nat) : Option Nat :=
  match get_prime e with
  | none => none
  | some p => div_exact b p

/-- `try_insert_many`: multiply by the checked `n`-th power of the element's prime. -/
def try_insert_many (w b e n : Nat) : Option Nat :=
  match get_prime e with
  | none => none
  | some p =>
    match checked_pow w p n with
    | none => none
    | some q => checked_mul w b q

/-- `from_inner`: wrap a raw nonzero backing value as a bag (the newtype constructor;
the phantom tag carries no data, so the bag is its backing value). -/
def from_inner (r : Nat) : Nat := r

/-- `into_inner`: the raw backing value of a bag. -/
def into_inner (b : Nat) : Nat := b

/-- `is_superset`: the left value is a multiple of the right one. -/
def is_superset (b rhs : Nat) : Bool := is_multiple b rhs

/-- `is_subset`: `rhs.is_superset(self)`. -/
def is_subset (b rhs : Nat) : Bool := is_superset rhs b

/-- `is_empty`: the backing value is 1. -/
def is_empty (b : Nat) : Bool := b == 1

/-- `try_sum`: checked product of the backing values. -/
def try_sum (w a b : Nat) : Option Nat := checked_mul w a b

/-- `try_union`: LCM of the backing values, failing on overflow. -/
def try_union (w a b : Nat) : Option Nat := lcm w a b

/-- `try_difference`: exact division of the backing values. -/
def try_difference (a b : Nat) : Option Nat := div_exact a b

/-- `intersection`: GCD of the backing values. -/
def intersection (a b : Nat) : Nat := gcd a b

/-- The loop of the forward iterator's `next` (`iter.rs`): from `prime_index` on,
advance until the current prime divides the chunk exactly; then divide it out and
emit the index, leaving `prime_index` at that position.  Returns
`(emitted index, new chunk, new prime_index)`; the `?` on `get_prime` ends the
search with `none` once the table is exhausted. -/
def iterNextAux (chunk : Nat) (i : Nat) : Option (Nat × Nat × Nat) :=
  match h : get_prime i with
  | none => none
  | some p =>
    match div_exact chunk p with
    | some c => some (i, c, i)
    | none => iterNextAux chunk (i + 1)
termination_by PRIMES.length - i
decreasing_by
  have hi : i < PRIMES.length := by
    unfold get_prime at h
    split at h
    · assumption
    · exact absurd h (by simp)
  omega

/-- `next` of the forward iterator: `none` on the empty bag, otherwise the search
loop above. -/
def iterNext (chunk i : Nat) : Option (Nat × Nat × Nat) :=
  if chunk == 1 then none else iterNextAux chunk i

/-- Collecting the forward iterator from state `(chunk, i)`.  Each `some` answer
strictly shrinks a nonzero chunk (it divides out a prime ≥ 2), which is the
termination measure; the `c < chunk` test is proved always true for the values
that actually arise (`iterNext_some_lt` below) and only makes the recursion
well-founded. -/
def iterToList (chunk i : Nat) : List Nat :=
  match iterNext chunk i with
  | none => []
  | some (e, c, j) => if h : c < chunk then e :: iterToList c j else []
termination_by chunk

/-- Common tail of `size_hint` (`iter.rs`): exact answer `twos` for an exhausted
residual, unbounded above past the table, otherwise `ilog` base the next prime.
`Nat.log` is Rust's `ilog` (floor logarithm). -/
def sizeHintCore (twos c pi : Nat) : Nat × Option Nat :=
  if c == 1 then (twos, some twos)
  else
    match get_prime pi with
    | none => (twos, none)
    | some p => (twos + 1, some (twos + Nat.log p c))

/-- `size_hint` (`iter.rs`): when the state still points at prime index 0, strip the
factors of 2 by trailing-zero count (the shifted chunk is rebuilt via `try_from`,
whose failure case returns the exact pair immediately). -/
def size_hint (chunk i : Nat) : Nat × Option Nat :=
  if i == 0 then
    let tz := trailingZeros chunk
    let nc := chunk / 2 ^ tz
    if nc == 0 then (tz, some tz) else sizeHintCore tz nc 1
  else sizeHintCore 0 chunk i

/-- The inner loop of the group iterator's `next` (`group_iter.rs`): keep dividing
`p` out of the chunk while it divides exactly; returns the number of extra
divisions and the final chunk.  The `2 ≤ p` guard holds at every call site (`p` is
a table prime) and only makes the recursion well-founded. -/
def divAll (chunk p : Nat) : Nat × Nat :=
  if h2 : 2 ≤ p then
    match h : div_exact chunk p with
    | none => (0, chunk)
    | some c =>
      let r := divAll c p
      (r.1 + 1, r.2)
  else (0, chunk)
termination_by chunk
decreasing_by
  unfold div_exact at h
  split at h
  next hmod =>
    split at h
    next => exact absurd h (by simp)
    next hq =>
      have hc : chunk / p = c := by injection h
      have hne : chunk ≠ 0 := by
        intro h0
        exact hq (by simp [h0])
      exact hc ▸ Nat.div_lt_self (Nat.pos_of_ne_zero hne) h2
  next => exact absurd h (by simp)

/-- The search loop of the group iterator's `next`: find the first prime from `i`
on that divides the chunk, divide out the whole run, and emit
`(index, multiplicity)`; `prime_index` then moves past the index just emitted. -/
def groupNextAux (chunk i : Nat) : Option ((Nat × Nat) × Nat × Nat) :=
  match h : get_prime i with
  | none => none
  | some p =>
    match div_exact chunk p with
    | some c =>
      let r := divAll c p
      some ((i, r.1 + 1), r.2, i + 1)
    | none => groupNextAux chunk (i + 1)
termination_by PRIMES.length - i
decreasing_by
  have hi : i < PRIMES.length := by
    unfold get_prime at h
    split at h
    · assumption
    · exact absurd h (by simp)
  omega

/-- `next` of the group iterator: `none` on the empty bag, otherwise the run
search. -/
def groupNext (chunk i : Nat) : Option ((Nat × Nat) × Nat × Nat) :=
  if chunk == 1 then none else groupNextAux chunk i

/-- Collecting the group iterator; termination as for `iterToList`. -/
def groupToList (chunk i : Nat) : List (Nat × Nat) :=
  match groupNext chunk i with
  | none => []
  | some (g, c, j) => if h : c < chunk then g :: groupToList c j else []
termination_by chunk

/-- Specification of `slice::binary_search` on a strictly sorted slice without
duplicates (every slice searched here is a suffix of `PRIMES`): `Except.ok` of the
position of the value when present, otherwise `Except.error` of the insertion
point; both equal the number of elements smaller than the probe. -/
def binarySearch (l : List Nat) (v : Nat) : Except Nat Nat :=
  if v ∈ l then Except.ok (l.countP (fun x => x < v))
  else Except.error (l.countP (fun x => x < v))

/-- The downward walk of `next_back` (`iter.rs`): starting just below the insertion
point, find the greatest prime index whose prime divides the residual `c`, divide
the stored chunk by that prime (rebuilt with `try_from(..).unwrap_or(MIN)`), and
emit the index; `checked_sub` returns `none` once index 0 is passed. -/
def walkDown (chunk c : Nat) : Nat → Option (Nat × Nat)
  | 0 => none
  | j + 1 =>
    match get_prime j with
    | none => none
    | some p =>
      if c % p == 0 then some (j, toNonZero (chunk / p))
      else walkDown chunk c j

/-- The binary-search phase of `next_back`, shared by the `prime_index == 0` path
(which searches the odd part from table offset 1) and the general path: an exact
match means that prime is the sole remaining factor of the residual, otherwise
walk downward from the insertion point. -/
def nextBackSearch (chunk c start : Nat) : Option (Nat × Nat) :=
  match binarySearch (PRIMES.drop start) c with
  | Except.ok offset =>
    some (offset + start, toNonZero (chunk / (get_prime (offset + start)).getD 1))
  | Except.error offsetAfter => walkDown chunk c (offsetAfter + start)

/-- `next_back` (`iter.rs`).  The state is `(chunk, prime_index)`; `next_back`
never writes `prime_index`, so the answer is the emitted index plus the new chunk.
At `prime_index == 0` the factors of 2 are shifted away first; a residual of 1
means the chunk is a power of two and one index-0 element is emitted per call. -/
def nextBack (chunk i : Nat) : Option (Nat × Nat) :=
  if chunk == 1 then none
  else if i == 0 then
    let odd := toNonZero (chunk / 2 ^ trailingZeros chunk)
    if odd == 1 then some (0, toNonZero (chunk / 2))
    else nextBackSearch chunk odd 1
  else nextBackSearch chunk chunk i

/-- Collecting the backward iterator (repeated `next_back`); termination as for
`iterToList`. -/
def backToList (chunk i : Nat) : List Nat :=
  match nextBack chunk i with
  | none => []
  | some (e, c) => if h : c < chunk then e :: backToList c i else []
termination_by chunk

/-- The prime at table index `y` (default 1 out of range; used only with
`y < NUM_PRIMES`). -/
def primeAt (y : Nat) : Nat := PRIMES.getD y 1

/-- The backing value encoding the multiset of prime indices `ys`. -/
def prodPrimes (ys : List Nat) : Nat := (ys.map primeAt).prod

/-- Run-length encoding: the shape the group iterator produces on a sorted
element sequence. -/
def rle : List Nat → List (Nat × Nat)
  | [] => []
  | x :: t =>
    match rle t with
    | [] => [(x, 1)]
    | (y, n) :: r => if x == y then (y, n + 1) :: r else (x, 1) :: (y, n) :: r

/-- Every prime factor of `b` comes from the table. -/
def factorsOverTable (b : Nat) : Prop := ∀ p, Nat.Prime p → p ∣ b → p ∈ PRIMES

/-- The representation invariant of a `w`-bit bag: a nonzero backing value within
the width whose prime factors all come from the table. -/
def validBag (w b : Nat) : Prop := 1 ≤ b ∧ b ≤ maxVal w ∧ factorsOverTable b

/-! ### Facts about the concrete prime table -/

theorem PRIMES_length : PRIMES.length = 32 := by decide

theorem two_le_primeAt : ∀ y, y < 32 → 2 ≤ primeAt y := by decide

theorem primeAt_prime : ∀ y, y < 32 → Nat.Prime (primeAt y) := by decide

theorem get_prime_eq_primeAt : ∀ y, y < 32 → get_prime y = some (primeAt y) := by decide

theorem primeAt_mono : ∀ z, z < 32 → ∀ y, y < z → primeAt y < primeAt z := by decide

theorem primeAt_mem : ∀ y, y < 32 → primeAt y ∈ PRIMES := by decide

theorem primeAt_one : primeAt 1 = 3 := by decide

theorem three_le_primeAt : ∀ y, 1 ≤ y → y < 32 → 3 ≤ primeAt y := by decide

theorem primeAt_mem_drop_one : ∀ m, 1 ≤ m → m < 32 → primeAt m ∈ PRIMES.drop 1 := by decide

theorem countP_lt_primeAt : ∀ m, 1 ≤ m → m < 32 →
    (PRIMES.drop 1).countP (fun x => x < primeAt m) = m - 1 := by decide

theorem take_drop_le_primeAt : ∀ m, 1 ≤ m → m < 32 →
    ∀ x ∈ ((PRIMES.drop 1).take m), x < primeAt m + 1 := by decide

theorem primes_all_prime : ∀ p ∈ PRIMES, Nat.Prime p := by decide

theorem primes_complete : ∀ q, q ≤ 131 → Nat.Prime q → q ∈ PRIMES := by decide

theorem primes_sorted : List.Sorted (· < ·) PRIMES := by decide

end PrimeBagSpec
namespace PrimeBagSpec

theorem div_exact_some {x o c : Nat} (h : div_exact x o = some c) :
    x % o = 0 ∧ x / o = c ∧ c ≠ 0 := by
  unfold div_exact at h
  split at h
  next hmod =>
    split at h
    next => exact absurd h (by simp)
    next hq =>
      injection h with h
      exact ⟨by simpa using hmod, h, h ▸ (by simpa using hq)⟩
  next hmod => exact absurd h (by simp)

theorem div_exact_of {x o : Nat} (ho : o ≠ 0) (hdvd : o ∣ x) (hc : x / o ≠ 0) :
    div_exact x o = some (x / o) := by
  unfold div_exact
  rw [if_pos, if_neg]
  · simpa using hc
  · simpa using Nat.dvd_iff_mod_eq_zero.mp hdvd

theorem div_exact_none_iff {x o : Nat} (hx : 1 ≤ x) (ho : 1 ≤ o) :
    div_exact x o = none ↔ ¬ o ∣ x := by
  constructor
  · intro h hdvd
    have hq : x / o ≠ 0 := by
      have := Nat.le_of_dvd hx hdvd
      have := Nat.one_le_div_iff (by omega) |>.mpr this
      omega
    rw [div_exact_of (by omega) hdvd hq] at h
    exact absurd h (by simp)
  · intro hnd
    unfold div_exact
    rw [if_neg]
    intro hmod
    exact hnd (Nat.dvd_of_mod_eq_zero (by simpa using hmod))

theorem get_prime_some {e p : Nat} (h : get_prime e = some p) : e < 32 ∧ p = primeAt e := by
  unfold get_prime at h
  split at h
  next hlt =>
    have h32 : e < 32 := PRIMES_length ▸ hlt
    have heq := get_prime_eq_primeAt e h32
    unfold get_prime at heq
    rw [dif_pos hlt] at heq
    injection h with h
    injection heq with heq
    exact ⟨h32, h ▸ heq⟩
  next => exact absurd h (by simp)

theorem get_prime_none {e : Nat} (h32 : 32 ≤ e) : get_prime e = none := by
  unfold get_prime
  rw [dif_neg]
  rw [PRIMES_length]
  omega

theorem checked_mul_some {w a b c : Nat} :
    checked_mul w a b = some c ↔ a * b ≤ maxVal w ∧ c = a * b := by
  unfold checked_mul
  split
  next hle => simp [hle, eq_comm]
  next hle => simp [hle]

theorem checked_pow_some {w a n c : Nat} :
    checked_pow w a n = some c ↔ a ^ n ≤ maxVal w ∧ c = a ^ n := by
  unfold checked_pow
  split
  next hle => simp [hle, eq_comm]
  next hle => simp [hle]

theorem divCount_of_not_dvd {b p : Nat} (h : ¬ p ∣ b) : divCount b p = 0 := by
  rw [divCount, dif_neg]
  rintro ⟨-, -, hmod⟩
  exact h (Nat.dvd_of_mod_eq_zero hmod)

theorem divCount_succ {b p : Nat} (h2 : 2 ≤ p) (h1 : 1 ≤ b) (hdvd : p ∣ b) :
    divCount b p = divCount (b / p) p + 1 := by
  rw [divCount, dif_pos ⟨h2, h1, Nat.dvd_iff_mod_eq_zero.mp hdvd⟩]

theorem divCount_pow_mul {p m : Nat} (h2 : 2 ≤ p) (hm : 1 ≤ m) (hnd : ¬ p ∣ m) :
    ∀ k, divCount (p ^ k * m) p = k := by
  intro k
  induction k with
  | zero => simpa using divCount_of_not_dvd hnd
  | succ k ih =>
    have hpos : 0 < p ^ (k + 1) * m := by positivity
    have hdvd : p ∣ p ^ (k + 1) * m := ⟨p ^ k * m, by ring⟩
    rw [divCount_succ h2 hpos hdvd]
    have hq : p ^ (k + 1) * m / p = p ^ k * m := by
      rw [show p ^ (k + 1) * m = p * (p ^ k * m) by ring]
      exact Nat.mul_div_cancel_left _ (by omega)
    rw [hq, ih]

theorem divCount_eq_factorization {p : Nat} (hp : Nat.Prime p) :
    ∀ b, 1 ≤ b → divCount b p = b.factorization p := by
  intro b
  induction b using Nat.strong_induction_on with
  | _ b ih =>
    intro hb
    by_cases hdvd : p ∣ b
    · obtain ⟨m, hm⟩ := hdvd
      have hp2 : 2 ≤ p := hp.two_le
      have hm1 : 1 ≤ m := by
        rcases Nat.eq_zero_or_pos m with h0 | h0
        · subst h0; simp at hm; omega
        · exact h0
      rw [divCount_succ hp2 hb ⟨m, hm⟩]
      have hq : b / p = m := by
        rw [hm]
        exact Nat.mul_div_cancel_left _ (by omega)
      rw [hq, ih m (by nlinarith) hm1, hm,
        Nat.factorization_mul (by omega) (by omega)]
      simp [hp.factorization, Finsupp.add_apply, Finsupp.single_eq_same]
      omega
    · rw [divCount_of_not_dvd hdvd, Nat.factorization_eq_zero_of_not_dvd hdvd]

end PrimeBagSpec
namespace PrimeBagSpec

theorem prodPrimes_nil : prodPrimes [] = 1 := rfl

theorem prodPrimes_cons (y : Nat) (t : List Nat) :
    prodPrimes (y :: t) = primeAt y * prodPrimes t := by
  simp [prodPrimes]

theorem prodPrimes_append (s t : List Nat) :
    prodPrimes (s ++ t) = prodPrimes s * prodPrimes t := by
  simp [prodPrimes]

theorem prodPrimes_replicate (k y : Nat) :
    prodPrimes (List.replicate k y) = primeAt y ^ k := by
  simp [prodPrimes, List.map_replicate, List.prod_replicate]

theorem one_le_prodPrimes {ys : List Nat} (h : ∀ y ∈ ys, y < 32) :
    1 ≤ prodPrimes ys := by
  induction ys with
  | nil => simp [prodPrimes_nil]
  | cons y t ih =>
    rw [prodPrimes_cons]
    have h2 := two_le_primeAt y (h y (by simp))
    have := ih (fun z hz => h z (by simp [hz]))
    exact Nat.one_le_iff_ne_zero.mpr (by positivity)

theorem prodPrimes_perm {ys zs : List Nat} (h : ys.Perm zs) :
    prodPrimes ys = prodPrimes zs :=
  (h.map primeAt).prod_eq

theorem prime_dvd_prodPrimes {p : Nat} (hp : Nat.Prime p) {ys : List Nat}
    (hys : ∀ y ∈ ys, y < 32) :
    p ∣ prodPrimes ys ↔ ∃ y ∈ ys, p = primeAt y := by
  constructor
  · intro hdvd
    obtain ⟨a, ha, hpa⟩ := (hp.prime.dvd_prod_iff).mp hdvd
    obtain ⟨y, hy, rfl⟩ := List.mem_map.mp ha
    exact ⟨y, hy, (Nat.prime_dvd_prime_iff_eq hp (primeAt_prime y (hys y hy))).mp hpa⟩
  · rintro ⟨y, hy, rfl⟩
    exact List.dvd_prod (List.mem_map_of_mem _ hy)

theorem primeAt_inj {y z : Nat} (hy : y < 32) (hz : z < 32)
    (h : primeAt y = primeAt z) : y = z := by
  rcases Nat.lt_trichotomy y z with hlt | heq | hgt
  · exact absurd h (Nat.ne_of_lt (primeAt_mono z hz y hlt))
  · exact heq
  · exact absurd h.symm (Nat.ne_of_lt (primeAt_mono y hy z hgt))

theorem pow_le_prodPrimes {p : Nat} {ys : List Nat} (h : ∀ y ∈ ys, p ≤ primeAt y) :
    p ^ ys.length ≤ prodPrimes ys := by
  induction ys with
  | nil => simp [prodPrimes_nil]
  | cons y t ih =>
    rw [prodPrimes_cons, List.length_cons, pow_succ, Nat.mul_comm (p ^ t.length) p]
    exact Nat.mul_le_mul (h y (by simp)) (ih (fun z hz => h z (by simp [hz])))

theorem try_extend_eq_some :
    ∀ (xs : List Nat) (w b c : Nat), try_extend w b xs = some c →
      (∀ x ∈ xs, x < 32) ∧ c = b * prodPrimes xs ∧
      (b ≤ maxVal w → c ≤ maxVal w) ∧ (1 ≤ b → 1 ≤ c) := by
  intro xs
  induction xs with
  | nil =>
    intro w b c h
    unfold try_extend at h
    injection h with h
    simp [prodPrimes_nil, h]
  | cons e rest ih =>
    intro w b c h
    unfold try_extend at h
    split at h
    next => exact absurd h (by simp)
    next p hp =>
      split at h
      next => exact absurd h (by simp)
      next b2 hb2 =>
        obtain ⟨he32, hpe⟩ := get_prime_some hp
        obtain ⟨hle, hval⟩ := checked_mul_some.mp hb2
        obtain ⟨hmem, hcval, hcle, hcpos⟩ := ih w b2 c h
        refine ⟨?_, ?_, fun _ => hcle (hval ▸ hle), ?_⟩
        · intro x hx
          rcases List.mem_cons.mp hx with rfl | hx
          · exact he32
          · exact hmem x hx
        · rw [hcval, hval, prodPrimes_cons, hpe]
          ring
        · intro hb
          refine hcpos ?_
          rw [hval]
          have := two_le_primeAt e he32
          rw [hpe]
          nlinarith

end PrimeBagSpec
namespace PrimeBagSpec

theorem iterNextAux_out {chunk i : Nat} (h32 : 32 ≤ i) : iterNextAux chunk i = none := by
  rw [iterNextAux]
  split
  · rfl
  next p hp =>
    rw [get_prime_none h32] at hp
    exact absurd hp (by simp)

theorem iterNextAux_step_none {chunk i p : Nat} (hp : get_prime i = some p)
    (hd : div_exact chunk p = none) : iterNextAux chunk i = iterNextAux chunk (i + 1) := by
  rw [iterNextAux]
  split
  next heq => rw [hp] at heq; exact absurd heq (by simp)
  next q hq =>
    rw [hp] at hq
    injection hq with hq
    subst hq
    split
    next c hc => rw [hd] at hc; exact absurd hc (by simp)
    next => rfl

theorem iterNextAux_step_some {chunk i p c : Nat} (hp : get_prime i = some p)
    (hd : div_exact chunk p = some c) : iterNextAux chunk i = some (i, c, i) := by
  rw [iterNextAux]
  split
  next heq => rw [hp] at heq; exact absurd heq (by simp)
  next q hq =>
    rw [hp] at hq
    injection hq with hq
    subst hq
    split
    next c2 hc2 =>
      rw [hd] at hc2
      injection hc2 with hc2
      rw [hc2]
    next hc2 => rw [hd] at hc2; exact absurd hc2 (by simp)

theorem iterNextAux_finds : ∀ (k chunk i y : Nat), y - i = k → y < 32 → i ≤ y →
    1 ≤ chunk → primeAt y ∣ chunk →
    (∀ j, i ≤ j → j < y → ¬ primeAt j ∣ chunk) →
    iterNextAux chunk i = some (y, chunk / primeAt y, y) := by
  intro k
  induction k with
  | zero =>
    intro chunk i y hk h32 hiy hc hdvd _
    have hiy2 : i = y := by omega
    subst hiy2
    have hp2 := two_le_primeAt i h32
    have hq : chunk / primeAt i ≠ 0 := by
      have hple := Nat.le_of_dvd hc hdvd
      have := (Nat.one_le_div_iff (by omega : 0 < primeAt i)).mpr hple
      omega
    exact iterNextAux_step_some (get_prime_eq_primeAt i h32)
      (div_exact_of (by omega) hdvd hq)
  | succ k ih =>
    intro chunk i y hk h32 hiy hc hdvd hnot
    have hlt : i < y := by omega
    have hi32 : i < 32 := by omega
    have hp2 := two_le_primeAt i hi32
    rw [iterNextAux_step_none (get_prime_eq_primeAt i hi32)
      ((div_exact_none_iff hc (by omega)).mpr (hnot i le_rfl hlt))]
    exact ih chunk (i + 1) y (by omega) h32 (by omega) hc hdvd
      (fun j hj hjy => hnot j (by omega) hjy)

theorem iterNextAux_none_of : ∀ (k chunk i : Nat), 32 - i = k → 1 ≤ chunk →
    (∀ j, i ≤ j → j < 32 → ¬ primeAt j ∣ chunk) → iterNextAux chunk i = none := by
  intro k
  induction k with
  | zero =>
    intro chunk i hk _ _
    exact iterNextAux_out (by omega)
  | succ k ih =>
    intro chunk i hk hc hnot
    have hi32 : i < 32 := by omega
    have hp2 := two_le_primeAt i hi32
    rw [iterNextAux_step_none (get_prime_eq_primeAt i hi32)
      ((div_exact_none_iff hc (by omega)).mpr (hnot i le_rfl hi32))]
    exact ih chunk (i + 1) (by omega) hc (fun j hj hj32 => hnot j (by omega) hj32)

theorem iterNextAux_some_inv : ∀ (k chunk i e c j : Nat), 32 - i = k →
    iterNextAux chunk i = some (e, c, j) →
    i ≤ e ∧ j = e ∧ e < 32 ∧ div_exact chunk (primeAt e) = some c := by
  intro k
  induction k with
  | zero =>
    intro chunk i e c j hk h
    rw [iterNextAux_out (by omega)] at h
    exact absurd h (by simp)
  | succ k ih =>
    intro chunk i e c j hk h
    by_cases hi32 : i < 32
    · have hp := get_prime_eq_primeAt i hi32
      cases hd : div_exact chunk (primeAt i) with
      | some c2 =>
        rw [iterNextAux_step_some hp hd] at h
        simp only [Option.some.injEq, Prod.mk.injEq] at h
        obtain ⟨he, hc, hj⟩ := h
        subst he; subst hc; subst hj
        exact ⟨le_rfl, rfl, hi32, hd⟩
      | none =>
        rw [iterNextAux_step_none hp hd] at h
        obtain ⟨h1, h2, h3, h4⟩ := ih chunk (i + 1) e c j (by omega) h
        exact ⟨by omega, h2, h3, h4⟩
    · rw [iterNextAux_out (by omega)] at h
      exact absurd h (by simp)

theorem iterNext_of_ne_one {chunk i : Nat} (h : chunk ≠ 1) :
    iterNext chunk i = iterNextAux chunk i := by
  unfold iterNext
  simp [h]

theorem iterNext_one {i : Nat} : iterNext 1 i = none := by
  unfold iterNext
  simp

theorem iterNext_some_inv {chunk i e c j : Nat} (h : iterNext chunk i = some (e, c, j)) :
    chunk ≠ 1 ∧ i ≤ e ∧ j = e ∧ e < 32 ∧ chunk = primeAt e * c ∧ 1 ≤ c ∧ c < chunk := by
  have hne : chunk ≠ 1 := by
    intro h1
    subst h1
    rw [iterNext_one] at h
    exact absurd h (by simp)
  rw [iterNext_of_ne_one hne] at h
  obtain ⟨hie, hje, he32, hd⟩ := iterNextAux_some_inv (32 - i) chunk i e c j rfl h
  obtain ⟨hmod, hq, hc0⟩ := div_exact_some hd
  have hp2 := two_le_primeAt e he32
  have hdvd : primeAt e ∣ chunk := Nat.dvd_of_mod_eq_zero hmod
  have hchunk : chunk = primeAt e * c := by
    rw [← hq]
    exact (Nat.mul_div_cancel' hdvd).symm
  refine ⟨hne, hie, hje, he32, hchunk, by omega, ?_⟩
  rw [hchunk]
  nlinarith [Nat.pos_of_ne_zero hc0]

theorem iterToList_eq_nil {chunk i : Nat} (h : iterNext chunk i = none) :
    iterToList chunk i = [] := by
  rw [iterToList, h]

theorem iterToList_eq_cons {chunk i e c j : Nat} (h : iterNext chunk i = some (e, c, j))
    (hlt : c < chunk) : iterToList chunk i = e :: iterToList c j := by
  rw [iterToList, h]
  simp [hlt]

theorem iterToList_prodPrimes :
    ∀ (ys : List Nat) (i : Nat), List.Sorted (· ≤ ·) ys →
      (∀ y ∈ ys, i ≤ y ∧ y < 32) → iterToList (prodPrimes ys) i = ys := by
  intro ys
  induction ys with
  | nil =>
    intro i _ _
    exact iterToList_eq_nil (by rw [prodPrimes_nil]; exact iterNext_one)
  | cons y t ih =>
    intro i hsort hmem
    obtain ⟨hiy, hy32⟩ := hmem y (by simp)
    have hyle : ∀ z ∈ t, y ≤ z := (List.sorted_cons.mp hsort).1
    have hsorted_t : List.Sorted (· ≤ ·) t := (List.sorted_cons.mp hsort).2
    have hmem_t : ∀ z ∈ t, y ≤ z ∧ z < 32 :=
      fun z hz => ⟨hyle z hz, (hmem z (by simp [hz])).2⟩
    have hbnd : ∀ z ∈ y :: t, z < 32 := fun z hz => (hmem z hz).2
    have hchunk : prodPrimes (y :: t) = primeAt y * prodPrimes t := prodPrimes_cons y t
    have hppos : 1 ≤ prodPrimes t := one_le_prodPrimes (fun z hz => (hmem_t z hz).2)
    have hp2 := two_le_primeAt y hy32
    have hge2 : 2 ≤ prodPrimes (y :: t) := by rw [hchunk]; nlinarith
    have hdvd : primeAt y ∣ prodPrimes (y :: t) := by
      rw [hchunk]; exact Dvd.intro _ rfl
    have hnot : ∀ j, i ≤ j → j < y → ¬ primeAt j ∣ prodPrimes (y :: t) := by
      intro j hij hjy hdj
      have hj32 : j < 32 := by omega
      obtain ⟨z, hz, hzeq⟩ := (prime_dvd_prodPrimes (primeAt_prime j hj32) hbnd).mp hdj
      have hz32 := (hmem z (by simp [hz])).2
      have hjz := primeAt_inj hj32 hz32 hzeq
      subst hjz
      rcases List.mem_cons.mp hz with heq | hz2
      · omega
      · have := hyle _ hz2; omega
    have hnext : iterNext (prodPrimes (y :: t)) i
        = some (y, prodPrimes (y :: t) / primeAt y, y) := by
      rw [iterNext_of_ne_one (by omega)]
      exact iterNextAux_finds (y - i) _ i y rfl hy32 hiy (by omega) hdvd hnot
    have hdivq : prodPrimes (y :: t) / primeAt y = prodPrimes t := by
      rw [hchunk]
      exact Nat.mul_div_cancel_left _ (by omega)
    rw [hdivq] at hnext
    rw [iterToList_eq_cons hnext (by rw [hchunk]; nlinarith)]
    rw [ih y hsorted_t hmem_t]

end PrimeBagSpec
namespace PrimeBagSpec

theorem divAll_of_not_dvd {chunk p : Nat} (h2 : 2 ≤ p) (hc : 1 ≤ chunk)
    (h : ¬ p ∣ chunk) : divAll chunk p = (0, chunk) := by
  rw [divAll, dif_pos h2, (div_exact_none_iff hc (by omega)).mpr h]

theorem divAll_step {chunk p c : Nat} (h2 : 2 ≤ p) (hd : div_exact chunk p = some c) :
    divAll chunk p = ((divAll c p).1 + 1, (divAll c p).2) := by
  rw [divAll, dif_pos h2, hd]

theorem divAll_pow_mul {p m : Nat} (h2 : 2 ≤ p) (hm : 1 ≤ m) (hnd : ¬ p ∣ m) :
    ∀ k, divAll (p ^ k * m) p = (k, m) := by
  intro k
  induction k with
  | zero => simpa using divAll_of_not_dvd h2 hm hnd
  | succ k ih =>
    have hdvd : p ∣ p ^ (k + 1) * m := ⟨p ^ k * m, by ring⟩
    have hq : p ^ (k + 1) * m / p = p ^ k * m := by
      rw [show p ^ (k + 1) * m = p * (p ^ k * m) by ring]
      exact Nat.mul_div_cancel_left _ (by omega)
    have hqne : p ^ (k + 1) * m / p ≠ 0 := by
      rw [hq]; positivity
    rw [divAll_step h2 (div_exact_of (by omega) hdvd hqne), hq, ih]

theorem groupNextAux_out {chunk i : Nat} (h32 : 32 ≤ i) : groupNextAux chunk i = none := by
  rw [groupNextAux]
  split
  · rfl
  next p hp =>
    rw [get_prime_none h32] at hp
    exact absurd hp (by simp)

theorem groupNextAux_step_none {chunk i p : Nat} (hp : get_prime i = some p)
    (hd : div_exact chunk p = none) : groupNextAux chunk i = groupNextAux chunk (i + 1) := by
  rw [groupNextAux]
  split
  next heq => rw [hp] at heq; exact absurd heq (by simp)
  next q hq =>
    rw [hp] at hq
    injection hq with hq
    subst hq
    split
    next c hc => rw [hd] at hc; exact absurd hc (by simp)
    next => rfl

theorem groupNextAux_step_some {chunk i p c : Nat} (hp : get_prime i = some p)
    (hd : div_exact chunk p = some c) :
    groupNextAux chunk i = some ((i, (divAll c p).1 + 1), (divAll c p).2, i + 1) := by
  rw [groupNextAux]
  split
  next heq => rw [hp] at heq; exact absurd heq (by simp)
  next q hq =>
    rw [hp] at hq
    injection hq with hq
    subst hq
    split
    next c2 hc2 =>
      rw [hd] at hc2
      injection hc2 with hc2
      rw [hc2]
    next hc2 => rw [hd] at hc2; exact absurd hc2 (by simp)

theorem groupNextAux_finds : ∀ (k chunk i y : Nat), y - i = k → y < 32 → i ≤ y →
    1 ≤ chunk → primeAt y ∣ chunk →
    (∀ j, i ≤ j → j < y → ¬ primeAt j ∣ chunk) →
    groupNextAux chunk i
      = some ((y, (divAll (chunk / primeAt y) (primeAt y)).1 + 1),
          (divAll (chunk / primeAt y) (primeAt y)).2, y + 1) := by
  intro k
  induction k with
  | zero =>
    intro chunk i y hk h32 hiy hc hdvd _
    have hiy2 : i = y := by omega
    subst hiy2
    have hp2 := two_le_primeAt i h32
    have hq : chunk / primeAt i ≠ 0 := by
      have hple := Nat.le_of_dvd hc hdvd
      have := (Nat.one_le_div_iff (by omega : 0 < primeAt i)).mpr hple
      omega
    exact groupNextAux_step_some (get_prime_eq_primeAt i h32)
      (div_exact_of (by omega) hdvd hq)
  | succ k ih =>
    intro chunk i y hk h32 hiy hc hdvd hnot
    have hlt : i < y := by omega
    have hi32 : i < 32 := by omega
    have hp2 := two_le_primeAt i hi32
    rw [groupNextAux_step_none (get_prime_eq_primeAt i hi32)
      ((div_exact_none_iff hc (by omega)).mpr (hnot i le_rfl hlt))]
    exact ih chunk (i + 1) y (by omega) h32 (by omega) hc hdvd
      (fun j hj hjy => hnot j (by omega) hjy)

theorem groupNext_of_ne_one {chunk i : Nat} (h : chunk ≠ 1) :
    groupNext chunk i = groupNextAux chunk i := by
  unfold groupNext
  simp [h]

theorem groupNext_one {i : Nat} : groupNext 1 i = none := by
  unfold groupNext
  simp

theorem groupToList_eq_nil {chunk i : Nat} (h : groupNext chunk i = none) :
    groupToList chunk i = [] := by
  rw [groupToList, h]

theorem groupToList_eq_cons {chunk i : Nat} {g : Nat × Nat} {c j : Nat}
    (h : groupNext chunk i = some (g, c, j)) (hlt : c < chunk) :
    groupToList chunk i = g :: groupToList c j := by
  rw [groupToList, h]
  simp [hlt]

theorem sorted_head_run :
    ∀ (ys : List Nat) (y : Nat), List.Sorted (· ≤ ·) ys → ys.head? = some y →
      ∃ k t, 1 ≤ k ∧ ys = List.replicate k y ++ t ∧ (∀ z ∈ t, y < z) ∧
        List.Sorted (· ≤ ·) t := by
  intro ys
  induction ys with
  | nil => intro y _ h; exact absurd h (by simp)
  | cons a rest ih =>
    intro y hsort hhead
    have ha : a = y := by simpa using hhead
    subst ha
    have hrest_sorted : List.Sorted (· ≤ ·) rest := (List.sorted_cons.mp hsort).2
    have hle : ∀ z ∈ rest, a ≤ z := (List.sorted_cons.mp hsort).1
    cases rest with
    | nil =>
      exact ⟨1, [], le_rfl, by simp, by simp, List.sorted_nil⟩
    | cons b rest2 =>
      by_cases hab : b = a
      · subst hab
        obtain ⟨k, t, hk, heq, hgt, hsorted_t⟩ := ih b hrest_sorted (by simp)
        refine ⟨k + 1, t, by omega, ?_, hgt, hsorted_t⟩
        rw [List.replicate_succ, List.cons_append, ← heq]
      · refine ⟨1, b :: rest2, le_rfl, by simp, ?_, hrest_sorted⟩
        intro z hz
        have hz_le : a ≤ z := hle z hz
        have hab2 : a ≤ b := hle b (by simp)
        rcases List.mem_cons.mp hz with rfl | hz2
        · omega
        · have hbz : b ≤ z := (List.sorted_cons.mp hrest_sorted).1 z hz2
          omega

theorem rle_cons_head : ∀ (x : Nat) (t : List Nat), ∃ n r, rle (x :: t) = (x, n) :: r := by
  intro x t
  unfold rle
  split
  next => exact ⟨1, [], rfl⟩
  next y n r heq =>
    by_cases hxy : x = y
    · subst hxy
      refine ⟨n + 1, r, ?_⟩
      simp
    · refine ⟨1, (y, n) :: r, ?_⟩
      simp [hxy]

theorem rle_replicate_append :
    ∀ (k y : Nat) (t : List Nat), 1 ≤ k → (∀ z ∈ t, y < z) →
      rle (List.replicate k y ++ t) = (y, k) :: rle t := by
  intro k
  induction k with
  | zero => intro y t hk _; omega
  | succ k ih =>
    intro y t _ hgt
    by_cases hk : 1 ≤ k
    · have ihk := ih y t hk hgt
      rw [List.replicate_succ, List.cons_append]
      rw [rle]
      rw [ihk]
      show (if (y == y) = true then (y, k + 1) :: rle t else (y, 1) :: (y, k) :: rle t)
        = (y, k + 1) :: rle t
      rw [if_pos (show (y == y) = true by simp)]
    · have hk0 : k = 0 := by omega
      subst hk0
      simp only [List.replicate_succ, List.replicate_zero, List.cons_append, List.nil_append]
      cases t with
      | nil => rfl
      | cons b t2 =>
        rw [rle]
        obtain ⟨n, r, hbr⟩ := rle_cons_head b t2
        rw [hbr]
        have hyb : y ≠ b := by
          have := hgt b (by simp)
          omega
        show (if (y == b) = true then (b, n + 1) :: r else (y, 1) :: (b, n) :: r)
          = (y, 0 + 1) :: (b, n) :: r
        rw [if_neg (by simpa using hyb)]

end PrimeBagSpec
namespace PrimeBagSpec

theorem groupToList_prodPrimes :
    ∀ (n : Nat) (ys : List Nat) (i : Nat), ys.length ≤ n → List.Sorted (· ≤ ·) ys →
      (∀ y ∈ ys, i ≤ y ∧ y < 32) → groupToList (prodPrimes ys) i = rle ys := by
  intro n
  induction n with
  | zero =>
    intro ys i hlen _ _
    have hnil : ys = [] := List.eq_nil_of_length_eq_zero (by omega)
    subst hnil
    rw [prodPrimes_nil]
    exact groupToList_eq_nil groupNext_one
  | succ n ih =>
    intro ys i hlen hsort hmem
    cases hys : ys with
    | nil => rw [prodPrimes_nil]; exact groupToList_eq_nil groupNext_one
    | cons y0 t0 =>
      subst hys
      obtain ⟨k, t, hk, heq, hgt, hsorted_t⟩ := sorted_head_run (y0 :: t0) y0 hsort (by simp)
      obtain ⟨hiy, hy32⟩ := hmem y0 (by simp)
      have hmem_t : ∀ z ∈ t, y0 + 1 ≤ z ∧ z < 32 := by
        intro z hz
        have hz_mem : z ∈ y0 :: t0 := by
          rw [heq]
          exact List.mem_append_right _ hz
        exact ⟨by have := hgt z hz; omega, (hmem z hz_mem).2⟩
      have hbnd : ∀ z ∈ y0 :: t0, z < 32 := fun z hz => (hmem z hz).2
      have hp2 := two_le_primeAt y0 hy32
      have hT1 : 1 ≤ prodPrimes t := one_le_prodPrimes (fun z hz => (hmem_t z hz).2)
      have hchunk : prodPrimes (y0 :: t0) = primeAt y0 ^ k * prodPrimes t := by
        rw [heq, prodPrimes_append, prodPrimes_replicate]
      have hndT : ¬ primeAt y0 ∣ prodPrimes t := by
        intro hd
        obtain ⟨z, hz, hzeq⟩ :=
          (prime_dvd_prodPrimes (primeAt_prime y0 hy32) (fun z hz => (hmem_t z hz).2)).mp hd
        have := primeAt_inj hy32 (hmem_t z hz).2 hzeq
        have := hgt z hz
        omega
      have hge2 : 2 ≤ prodPrimes (y0 :: t0) := by
        rw [hchunk]
        have : 2 ≤ primeAt y0 ^ k :=
          le_trans (by simpa using Nat.pow_le_pow_right (by omega : 1 ≤ 2) hk)
            (Nat.pow_le_pow_left hp2 k)
        nlinarith
      have hdvd : primeAt y0 ∣ prodPrimes (y0 :: t0) := by
        rw [hchunk]
        exact Dvd.dvd.mul_right (dvd_pow_self _ (by omega)) _
      have hnot : ∀ j, i ≤ j → j < y0 → ¬ primeAt j ∣ prodPrimes (y0 :: t0) := by
        intro j hij hjy hdj
        have hj32 : j < 32 := by omega
        obtain ⟨z, hz, hzeq⟩ := (prime_dvd_prodPrimes (primeAt_prime j hj32) hbnd).mp hdj
        have hz32 := (hmem z hz).2
        have hjz := primeAt_inj hj32 hz32 hzeq
        subst hjz
        rcases List.mem_cons.mp hz with hzz | hz2
        · omega
        · have hje : j ∈ y0 :: t0 := by simp [hz2]
          rw [heq] at hje
          rcases List.mem_append.mp hje with hrep | hmt
          · have := List.eq_of_mem_replicate hrep; omega
          · have := hgt _ hmt; omega
      have hdivq : prodPrimes (y0 :: t0) / primeAt y0
          = primeAt y0 ^ (k - 1) * prodPrimes t := by
        rw [hchunk, show primeAt y0 ^ k = primeAt y0 * primeAt y0 ^ (k - 1) by
          rw [← pow_succ']
          congr 1
          omega]
        rw [Nat.mul_assoc]
        exact Nat.mul_div_cancel_left _ (by omega)
      have hnext : groupNext (prodPrimes (y0 :: t0)) i
          = some ((y0, k), prodPrimes t, y0 + 1) := by
        rw [groupNext_of_ne_one (by omega)]
        rw [groupNextAux_finds (y0 - i) _ i y0 rfl hy32 hiy (by omega) hdvd hnot]
        rw [hdivq, divAll_pow_mul hp2 hT1 hndT]
        have hkk : k - 1 + 1 = k := by omega
        rw [hkk]
      have hlt : prodPrimes t < prodPrimes (y0 :: t0) := by
        rw [hchunk]
        have h2k : 2 ≤ primeAt y0 ^ k :=
          le_trans (by simpa using Nat.pow_le_pow_right (by omega : 1 ≤ 2) hk)
            (Nat.pow_le_pow_left hp2 k)
        nlinarith
      rw [groupToList_eq_cons hnext hlt]
      have hlen_t : t.length ≤ n := by
        have : (y0 :: t0).length = k + t.length := by rw [heq]; simp
        simp at this hlen
        omega
      rw [ih t (y0 + 1) hlen_t hsorted_t hmem_t]
      rw [heq, rle_replicate_append k y0 t hk hgt]

/-- Claim C1: for every input sequence whose prime indices are all in the table and
for which `try_from_iter` builds a bag, the forward iterator yields exactly the
input elements with their multiplicities in ascending prime-index order (a sorted
permutation of the input), and the group iterator yields the corresponding
`(element, multiplicity)` pairs in that same order (the run-length encoding of the
forward sequence). -/
theorem C1_build_decode {w : Nat} {xs : List Nat} {b : Nat}
    (h : try_from_iter w xs = some b) :
    (iterToList b 0).Perm xs ∧ List.Sorted (· ≤ ·) (iterToList b 0) ∧
    groupToList b 0 = rle (iterToList b 0) := by
  obtain ⟨hmem, hval, -, -⟩ := try_extend_eq_some xs w 1 b h
  rw [one_mul] at hval
  have hperm : (List.insertionSort (· ≤ ·) xs).Perm xs := List.perm_insertionSort _ _
  have hsort : List.Sorted (· ≤ ·) (List.insertionSort (· ≤ ·) xs) :=
    List.sorted_insertionSort _ _
  have hmem_s : ∀ y ∈ List.insertionSort (· ≤ ·) xs, 0 ≤ y ∧ y < 32 :=
    fun y hy => ⟨Nat.zero_le y, hmem y (hperm.mem_iff.mp hy)⟩
  have hbs : b = prodPrimes (List.insertionSort (· ≤ ·) xs) := by
    rw [hval]
    exact (prodPrimes_perm hperm).symm
  have hfwd : iterToList b 0 = List.insertionSort (· ≤ ·) xs := by
    rw [hbs]
    exact iterToList_prodPrimes _ 0 hsort hmem_s
  have hgrp : groupToList b 0 = rle (List.insertionSort (· ≤ ·) xs) := by
    rw [hbs]
    exact groupToList_prodPrimes (List.insertionSort (· ≤ ·) xs).length _ 0 le_rfl hsort hmem_s
  rw [hfwd, hgrp]
  exact ⟨hperm, hsort, rfl⟩

theorem C1_witness :
    try_from_iter 16 [2, 1, 2] = some 75 ∧
    ((iterToList 75 0).Perm [2, 1, 2] ∧ List.Sorted (· ≤ ·) (iterToList 75 0) ∧
      groupToList 75 0 = rle (iterToList 75 0)) :=
  ⟨by decide, @C1_build_decode 16 [2, 1, 2] 75 (by decide)⟩

end PrimeBagSpec
namespace PrimeBagSpec

/-- Claim C4: the compile-time table `PRIMES` is the ordered sequence of the first
32 primes — sorted strictly, all entries prime, and containing every prime up to
its last entry 131 — with `PRIMES[0] = 2`, `PRIMES[1] = 3`, `PRIMES[31] = 131`;
and building a 16-bit bag from the index sequence `[1, 1, 2]` produces the raw
inner value 45 = 3² · 5.  (The sieve yields the same table for every backing
width, since all 32 values fit even in 8 bits.) -/
theorem C4_prime_table :
    PRIMES.length = 32 ∧ List.Sorted (· < ·) PRIMES ∧
    (∀ p ∈ PRIMES, Nat.Prime p) ∧ (∀ q, q ≤ 131 → Nat.Prime q → q ∈ PRIMES) ∧
    get_prime 0 = some 2 ∧ get_prime 1 = some 3 ∧ get_prime 31 = some 131 ∧
    try_from_iter 16 [1, 1, 2] = some 45 :=
  ⟨PRIMES_length, primes_sorted, primes_all_prime, primes_complete,
    by decide, by decide, by decide, by decide⟩

/-- Claim C5: for every nonzero raw value of the chosen backing width,
`from_inner(r).into_inner() == r` — the conversion is a bit-exact round trip (the
newtype constructor and projection compose to the identity on the backing
value). -/
theorem C5_round_trip {w r : Nat} (h1 : 1 ≤ r) (hw : r ≤ maxVal w) :
    into_inner (from_inner r) = r := rfl

theorem C5_witness : 1 ≤ 45 ∧ 45 ≤ maxVal 16 ∧ into_inner (from_inner 45) = 45 :=
  ⟨by decide, by decide, @C5_round_trip 16 45 (by decide) (by decide)⟩

/-- Claim C6: whenever `try_insert` succeeds (the element's index has a table
entry and the multiplication does not overflow), `try_remove` of the same element
on the result returns the original bag. -/
theorem C6_insert_remove {w b e b2 : Nat} (hb : 1 ≤ b)
    (h : try_insert w b e = some b2) : try_remove b2 e = some b := by
  unfold try_insert at h
  split at h
  next => exact absurd h (by simp)
  next p hp =>
    obtain ⟨he32, hpe⟩ := get_prime_some hp
    obtain ⟨-, hval⟩ := checked_mul_some.mp h
    have hp2 := two_le_primeAt e he32
    unfold try_remove
    rw [hp]
    show div_exact b2 p = some b
    rw [hval, hpe, Nat.mul_comm b (primeAt e)]
    have hpos : 0 < primeAt e := by omega
    have hq : primeAt e * b / primeAt e = b := Nat.mul_div_cancel_left b hpos
    rw [div_exact_of (by omega) (dvd_mul_right _ _) (by rw [hq]; omega), hq]

theorem C6_witness : 1 ≤ 45 ∧ try_insert 16 45 2 = some 225 ∧ try_remove 225 2 = some 45 :=
  ⟨by decide, by decide, @C6_insert_remove 16 45 2 225 (by decide) (by decide)⟩

end PrimeBagSpec
namespace PrimeBagSpec

/-- Claim C8: `intersection`, `is_superset`, `is_subset` and the query operations
(`contains`, `contains_at_least`, `count_instances`, `is_empty`) are total,
plainly-valued functions in the source (`Bool`/`usize`/bag valued, never
`Option`), which the embedding reflects by construction; the substantive part
proved here is that `contains` and `contains_at_least` return `false` — and
`count_instances` returns 0 — rather than an error, whenever the element's index
has no table entry, and `contains_at_least` returns `false` whenever the required
`n`-th power overflows the backing width. -/
theorem C8_queries_total {w b e n : Nat} :
    (32 ≤ e → contains b e = false ∧ contains_at_least w b e n = false ∧
      count_instances b e = 0) ∧
    (∀ p, get_prime e = some p → maxVal w < p ^ n →
      contains_at_least w b e n = false) := by
  constructor
  · intro h32
    have hnone := get_prime_none h32
    refine ⟨?_, ?_, ?_⟩
    · unfold contains
      rw [hnone]
    · unfold contains_at_least
      rw [hnone]
    · unfold count_instances
      rw [if_neg (by simp; omega), hnone]
  · intro p hp hover
    unfold contains_at_least
    rw [hp]
    have hpow : checked_pow w p n = none := by
      unfold checked_pow
      rw [if_neg (by omega)]
    show (match checked_pow w p n with
      | some q => is_multiple b q
      | none => false) = false
    rw [hpow]

theorem C8_witness :
    (contains 45 33 = false ∧ contains_at_least 16 45 33 1 = false ∧
      count_instances 45 33 = 0) ∧
    contains_at_least 16 45 31 3 = false :=
  ⟨(@C8_queries_total 16 45 33 1).1 (by decide),
   (@C8_queries_total 16 45 31 3).2 131 (by decide) (by decide)⟩

theorem count_instances_eq_factorization {b e : Nat} (hb : 1 ≤ b) (he : e < 32) :
    count_instances b e = b.factorization (primeAt e) := by
  unfold count_instances
  by_cases he0 : e = 0
  · subst he0
    rw [if_pos (by simp)]
    unfold trailingZeros
    have h2 : primeAt 0 = 2 := by decide
    rw [show (2 : Nat) = primeAt 0 from h2.symm] at *
    exact h2 ▸ divCount_eq_factorization (h2 ▸ primeAt_prime 0 (by omega)) b hb
  · rw [if_neg (by simpa using he0), get_prime_eq_primeAt e he]
    show divCount b (primeAt e) = _
    exact divCount_eq_factorization (primeAt_prime e he) b hb

theorem try_union_eq {w a b : Nat} (ha : 1 ≤ a) (hb : 1 ≤ b) :
    try_union w a b = if Nat.lcm a b ≤ maxVal w then some (Nat.lcm a b) else none := by
  have hg1 : 0 < gcd a b := Nat.gcd_pos_of_pos_left b ha
  have hgd : gcd a b ∣ a := Nat.gcd_dvd_left a b
  have hq1 : 1 ≤ a / gcd a b := (Nat.one_le_div_iff hg1).mpr (Nat.le_of_dvd ha hgd)
  unfold try_union lcm
  rw [div_exact_of (by omega) hgd (by omega)]
  have hlcm : b * (a / gcd a b) = Nat.lcm a b := by
    rw [← Nat.mul_div_assoc b hgd, Nat.mul_comm b a]
    rfl
  show checked_mul w b (a / gcd a b)
      = if Nat.lcm a b ≤ maxVal w then some (Nat.lcm a b) else none
  unfold checked_mul
  rw [hlcm]

/-- Claim C2: `try_union` computes the LCM of the backing values — succeeding with
`lcm(a, b)` exactly when it fits the backing width and failing exactly when it
overflows — so every element's count in the result is the maximum of its counts
in the two inputs; and the concrete 16-bit scenario holds:
`try_union([1,2,3,3], [2,3,4])` is the bag of `[1,2,3,3,4]`, while unioning that
result with `[5]` fails. -/
theorem C2_union_lcm {w a b : Nat} (ha : 1 ≤ a) (hb : 1 ≤ b) :
    (Nat.lcm a b ≤ maxVal w → try_union w a b = some (Nat.lcm a b)) ∧
    (maxVal w < Nat.lcm a b → try_union w a b = none) ∧
    (∀ c, try_union w a b = some c → ∀ e, e < 32 →
      count_instances c e = max (count_instances a e) (count_instances b e)) ∧
    (try_from_iter 16 [1, 2, 3, 3] = some 735 ∧ try_from_iter 16 [2, 3, 4] = some 385 ∧
      try_from_iter 16 [1, 2, 3, 3, 4] = some 8085 ∧ try_union 16 735 385 = some 8085 ∧
      try_from_iter 16 [5] = some 13 ∧ try_union 16 8085 13 = none) := by
  refine ⟨?_, ?_, ?_, by decide, by decide, by decide, by decide, by decide, by decide⟩
  · intro hle
    rw [try_union_eq ha hb, if_pos hle]
  · intro hgt
    rw [try_union_eq ha hb, if_neg (by omega)]
  · intro c hc e he
    rw [try_union_eq ha hb] at hc
    split at hc
    next hle =>
      injection hc with hc
      subst hc
      have hlcm1 : 1 ≤ Nat.lcm a b :=
        Nat.pos_of_ne_zero (Nat.lcm_ne_zero (by omega) (by omega))
      rw [count_instances_eq_factorization hlcm1 he,
        count_instances_eq_factorization ha he,
        count_instances_eq_factorization hb he,
        Nat.factorization_lcm (by omega) (by omega)]
      simp [Finsupp.sup_apply]
    next => exact absurd hc (by simp)

theorem C2_witness :
    1 ≤ 735 ∧ 1 ≤ 385 ∧
    (try_union 16 735 385 = some (Nat.lcm 735 385) ∧
      count_instances 8085 3 = max (count_instances 735 3) (count_instances 385 3)) :=
  ⟨by decide, by decide,
    (@C2_union_lcm 16 735 385 (by decide) (by decide)).1 (by decide),
    (@C2_union_lcm 16 735 385 (by decide) (by decide)).2.2.1 8085 (by decide) 3 (by decide)⟩

end PrimeBagSpec
namespace PrimeBagSpec

/-- Claim C10: for every nonzero backing value — including values with prime
factors outside the table — each forward-iterator `next` either strips one
table-prime factor, strictly decreasing the chunk (so repeated calls terminate),
or returns `none`: immediately on the empty chunk, and otherwise only after the
table is exhausted because no table prime at or past the current index divides
the remaining chunk. -/
theorem C10_iter_total {chunk i : Nat} (h1 : 1 ≤ chunk) :
    (∃ e c, get_prime e = some (primeAt e) ∧ iterNext chunk i = some (e, c, e) ∧
      chunk = primeAt e * c ∧ c < chunk)
    ∨ (iterNext chunk i = none ∧
      (chunk = 1 ∨ ∀ j p, get_prime j = some p → i ≤ j → ¬ p ∣ chunk)) := by
  by_cases hone : chunk = 1
  · subst hone
    exact Or.inr ⟨iterNext_one, Or.inl rfl⟩
  by_cases hex : ∃ j, i ≤ j ∧ j < 32 ∧ primeAt j ∣ chunk
  · left
    obtain ⟨hiy, hy32, hdvd⟩ : i ≤ Nat.find hex ∧ Nat.find hex < 32 ∧
        primeAt (Nat.find hex) ∣ chunk := Nat.find_spec hex
    have hnot : ∀ j, i ≤ j → j < Nat.find hex → ¬ primeAt j ∣ chunk := by
      intro j hij hjy hdj
      exact Nat.find_min hex hjy ⟨hij, by omega, hdj⟩
    have hnext : iterNext chunk i = some (Nat.find hex, chunk / primeAt (Nat.find hex),
        Nat.find hex) := by
      rw [iterNext_of_ne_one hone]
      exact iterNextAux_finds (Nat.find hex - i) chunk i (Nat.find hex) rfl hy32 hiy h1
        hdvd hnot
    obtain ⟨-, -, -, -, hfac, -, hlt⟩ := iterNext_some_inv hnext
    exact ⟨Nat.find hex, chunk / primeAt (Nat.find hex),
      get_prime_eq_primeAt _ hy32, hnext, hfac, hlt⟩
  · right
    have hex2 : ∀ j, i ≤ j → j < 32 → ¬ primeAt j ∣ chunk :=
      fun j hij hj32 hdj => hex ⟨j, hij, hj32, hdj⟩
    refine ⟨?_, Or.inr ?_⟩
    · rw [iterNext_of_ne_one hone]
      exact iterNextAux_none_of (32 - i) chunk i rfl h1 hex2
    · intro j p hp hij hdj
      obtain ⟨hj32, hpe⟩ := get_prime_some hp
      exact hex2 j hij hj32 (hpe ▸ hdj)

theorem C10_witness :
    (∃ e c, get_prime e = some (primeAt e) ∧ iterNext 274 0 = some (e, c, e) ∧
      274 = primeAt e * c ∧ c < 274)
    ∨ (iterNext 274 0 = none ∧
      (274 = 1 ∨ ∀ j p, get_prime j = some p → 0 ≤ j → ¬ p ∣ 274)) :=
  @C10_iter_total 274 0 (by decide)

theorem factorsOverTable_mul {a b : Nat} (ha : factorsOverTable a)
    (hb : factorsOverTable b) : factorsOverTable (a * b) := by
  intro p hp hdvd
  rcases (Nat.Prime.dvd_mul hp).mp hdvd with h | h
  · exact ha p hp h
  · exact hb p hp h

theorem factorsOverTable_of_dvd {a c : Nat} (h : c ∣ a) (ha : factorsOverTable a) :
    factorsOverTable c := fun p hp hdvd => ha p hp (hdvd.trans h)

theorem factorsOverTable_primeAt_pow {e n : Nat} (he : e < 32) :
    factorsOverTable (primeAt e ^ n) := by
  intro p hp hdvd
  have hpp := Nat.Prime.dvd_of_dvd_pow hp hdvd
  have hpe := (Nat.prime_dvd_prime_iff_eq hp (primeAt_prime e he)).mp hpp
  subst hpe
  exact primeAt_mem e he

theorem factorsOverTable_prodPrimes {ys : List Nat} (h : ∀ y ∈ ys, y < 32) :
    factorsOverTable (prodPrimes ys) := by
  intro p hp hdvd
  obtain ⟨y, hy, rfl⟩ := (prime_dvd_prodPrimes hp h).mp hdvd
  exact primeAt_mem y (h y hy)

/-- Claim C9: if the operands are valid bags (nonzero, within the backing width,
and factoring completely over the table primes), then any bag successfully
returned by `try_insert`, `try_insert_many`, `try_extend`, `try_sum`,
`try_union`, `try_difference`, or `intersection` is again a valid bag. -/
theorem C9_invariant {w a b : Nat} (ha : validBag w a) (hb : validBag w b) :
    (∀ e c, try_insert w a e = some c → validBag w c) ∧
    (∀ e n c, try_insert_many w a e n = some c → validBag w c) ∧
    (∀ xs c, try_extend w a xs = some c → validBag w c) ∧
    (∀ c, try_sum w a b = some c → validBag w c) ∧
    (∀ c, try_union w a b = some c → validBag w c) ∧
    (∀ c, try_difference a b = some c → validBag w c) ∧
    validBag w (intersection a b) := by
  obtain ⟨ha1, haw, haf⟩ := ha
  obtain ⟨hb1, hbw, hbf⟩ := hb
  refine ⟨?_, ?_, ?_, ?_, ?_, ?_, ?_⟩
  · intro e c h
    unfold try_insert at h
    split at h
    next => exact absurd h (by simp)
    next p hp =>
      obtain ⟨he32, hpe⟩ := get_prime_some hp
      obtain ⟨hle, hval⟩ := checked_mul_some.mp h
      subst hval
      have hp2 := two_le_primeAt e he32
      refine ⟨by nlinarith [hpe ▸ hp2], hle, ?_⟩
      subst hpe
      exact factorsOverTable_mul haf
        (by simpa using factorsOverTable_primeAt_pow (n := 1) he32)
  · intro e n c h
    unfold try_insert_many at h
    split at h
    next => exact absurd h (by simp)
    next p hp =>
      obtain ⟨he32, hpe⟩ := get_prime_some hp
      split at h
      next => exact absurd h (by simp)
      next q hq =>
        obtain ⟨-, hqval⟩ := checked_pow_some.mp hq
        obtain ⟨hle, hval⟩ := checked_mul_some.mp h
        subst hval
        subst hqval
        have hp2 := two_le_primeAt e he32
        have hq1 : 1 ≤ p ^ n := by
          rw [hpe]
          exact Nat.one_le_pow _ _ (by omega)
        refine ⟨by nlinarith, hle, ?_⟩
        subst hpe
        exact factorsOverTable_mul haf (factorsOverTable_primeAt_pow he32)
  · intro xs c h
    obtain ⟨hmem, hval, hbound, hpos⟩ := try_extend_eq_some xs w a c h
    subst hval
    exact ⟨hpos ha1, hbound haw,
      factorsOverTable_mul haf (factorsOverTable_prodPrimes hmem)⟩
  · intro c h
    obtain ⟨hle, hval⟩ := checked_mul_some.mp (h : checked_mul w a b = some c)
    subst hval
    exact ⟨by nlinarith, hle, factorsOverTable_mul haf hbf⟩
  · intro c h
    rw [try_union_eq ha1 hb1] at h
    split at h
    next hle =>
      injection h with h
      subst h
      have hlcm1 : 1 ≤ Nat.lcm a b :=
        Nat.pos_of_ne_zero (Nat.lcm_ne_zero (by omega) (by omega))
      have hdvd : Nat.lcm a b ∣ a * b :=
        Nat.lcm_dvd (dvd_mul_right a b) (dvd_mul_left b a)
      exact ⟨hlcm1, hle, factorsOverTable_of_dvd hdvd (factorsOverTable_mul haf hbf)⟩
    next => exact absurd h (by simp)
  · intro c h
    obtain ⟨hmod, hval, hc0⟩ := div_exact_some (h : div_exact a b = some c)
    have hdvd : b ∣ a := Nat.dvd_of_mod_eq_zero hmod
    have hcda : c ∣ a := by
      refine Dvd.intro_left b ?_
      rw [← hval]
      exact (Nat.mul_div_cancel' hdvd)
    refine ⟨by omega, ?_, factorsOverTable_of_dvd hcda haf⟩
    calc c ≤ a := by rw [← hval]; exact Nat.div_le_self a b
    _ ≤ maxVal w := haw
  · have hgd : gcd a b ∣ a := Nat.gcd_dvd_left a b
    have hg1 : 0 < gcd a b := Nat.gcd_pos_of_pos_left b ha1
    exact ⟨hg1, le_trans (Nat.le_of_dvd ha1 hgd) haw,
      factorsOverTable_of_dvd hgd haf⟩

theorem C9_witness :
    validBag 16 45 ∧ validBag 16 3 ∧ validBag 16 (intersection 45 3) :=
  have h45 : validBag 16 45 :=
    ⟨by decide, by decide,
      (show (45 : Nat) = prodPrimes [1, 1, 2] by decide) ▸
        factorsOverTable_prodPrimes (by decide)⟩
  have h3 : validBag 16 3 :=
    ⟨by decide, by decide,
      (show (3 : Nat) = prodPrimes [1] by decide) ▸
        factorsOverTable_prodPrimes (by decide)⟩
  ⟨h45, h3, (@C9_invariant 16 45 3 h45 h3).2.2.2.2.2.2⟩

end PrimeBagSpec
namespace PrimeBagSpec

theorem primeAt_le_primeAt : ∀ z, z < 32 → ∀ y, y ≤ z → primeAt y ≤ primeAt z := by decide

theorem sorted_zero_run (s : List Nat) (hs : List.Sorted (· ≤ ·) s) :
    ∃ z u, s = List.replicate z 0 ++ u ∧ (∀ y ∈ u, 1 ≤ y) ∧ List.Sorted (· ≤ ·) u := by
  cases hhead : s.head? with
  | none =>
    have hnil : s = [] := List.head?_eq_none_iff.mp hhead
    exact ⟨0, [], by simp [hnil], by simp, List.sorted_nil⟩
  | some y =>
    by_cases hy : y = 0
    · subst hy
      obtain ⟨k, t, _, heq, hgt, hst⟩ := sorted_head_run s 0 hs hhead
      exact ⟨k, t, heq, fun z hz => hgt z hz, hst⟩
    · refine ⟨0, s, by simp, ?_, hs⟩
      intro z hz
      cases s with
      | nil => simp at hz
      | cons a t =>
        have hay : a = y := by simpa using hhead
        subst hay
        rcases List.mem_cons.mp hz with rfl | hz2
        · omega
        · have := (List.sorted_cons.mp hs).1 z hz2
          omega

theorem not_two_dvd_prodPrimes {u : List Nat} (h : ∀ y ∈ u, 1 ≤ y ∧ y < 32) :
    ¬ 2 ∣ prodPrimes u := by
  intro hdvd
  obtain ⟨y, hy, hyeq⟩ :=
    (prime_dvd_prodPrimes Nat.prime_two (fun y hy => (h y hy).2)).mp hdvd
  have := three_le_primeAt y (h y hy).1 (h y hy).2
  omega

theorem size_hint_zero (chunk : Nat) :
    size_hint chunk 0 = (if chunk / 2 ^ trailingZeros chunk == 0
      then (trailingZeros chunk, some (trailingZeros chunk))
      else sizeHintCore (trailingZeros chunk) (chunk / 2 ^ trailingZeros chunk) 1) := by
  unfold size_hint
  rw [if_pos (by simp)]

theorem size_hint_pos {i : Nat} (hi : i ≠ 0) (chunk : Nat) :
    size_hint chunk i = sizeHintCore 0 chunk i := by
  unfold size_hint
  rw [if_neg (by simpa using hi)]

theorem sizeHintCore_one (twos pi : Nat) : sizeHintCore twos 1 pi = (twos, some twos) := by
  unfold sizeHintCore
  rw [if_pos (by simp)]

theorem sizeHintCore_of_ne_one {c : Nat} (hc : c ≠ 1) (twos pi p : Nat)
    (hp : get_prime pi = some p) :
    sizeHintCore twos c pi = (twos + 1, some (twos + Nat.log p c)) := by
  unfold sizeHintCore
  rw [if_neg (by simpa using hc), hp]

/-- Claim C7: for every forward-iterator state arising from a bag whose backing
value factors over the prime table (all remaining factor indices at or past the
state's prime index), `size_hint` returns, without consuming the iterator, a pair
`(lo, some hi)` with `lo ≤ exact remaining element count ≤ hi`: the factor-of-2
contribution is counted exactly via the trailing-zero count and the residual is
bounded above by the floor logarithm base the next prime; in particular the upper
bound is finite. -/
theorem C7_size_hint {chunk i : Nat} {ys : List Nat}
    (hb : ∀ y ∈ ys, i ≤ y ∧ y < 32) (hc : chunk = prodPrimes ys) :
    ∃ lo hi, size_hint chunk i = (lo, some hi) ∧
      lo ≤ (iterToList chunk i).length ∧ (iterToList chunk i).length ≤ hi := by
  have hperm : (List.insertionSort (· ≤ ·) ys).Perm ys := List.perm_insertionSort _ _
  have hsort : List.Sorted (· ≤ ·) (List.insertionSort (· ≤ ·) ys) :=
    List.sorted_insertionSort _ _
  set s := List.insertionSort (· ≤ ·) ys with hs_def
  have hmem_s : ∀ y ∈ s, i ≤ y ∧ y < 32 := fun y hy => hb y (hperm.mem_iff.mp hy)
  have hcs : chunk = prodPrimes s := by
    rw [hc]
    exact (prodPrimes_perm hperm).symm
  have hiter : iterToList chunk i = s := by
    rw [hcs]
    exact iterToList_prodPrimes s i hsort hmem_s
  rw [hiter]
  by_cases hi0 : i = 0
  · subst hi0
    obtain ⟨z, u, heq, hu1, hsu⟩ := sorted_zero_run s hsort
    have hmem_u : ∀ y ∈ u, 1 ≤ y ∧ y < 32 := by
      intro y hy
      exact ⟨hu1 y hy, (hmem_s y (by rw [heq]; exact List.mem_append_right _ hy)).2⟩
    have hU1 : 1 ≤ prodPrimes u := one_le_prodPrimes (fun y hy => (hmem_u y hy).2)
    have hUodd : ¬ 2 ∣ prodPrimes u := not_two_dvd_prodPrimes hmem_u
    have hchunkz : chunk = 2 ^ z * prodPrimes u := by
      rw [hcs, heq, prodPrimes_append, prodPrimes_replicate]
      congr 1
    have htz : trailingZeros chunk = z := by
      unfold trailingZeros
      rw [hchunkz]
      exact divCount_pow_mul (by omega) hU1 hUodd z
    have hnc : chunk / 2 ^ trailingZeros chunk = prodPrimes u := by
      rw [htz, hchunkz]
      exact Nat.mul_div_cancel_left _ (by positivity)
    have hlen : s.length = z + u.length := by
      rw [heq]
      simp
    rw [size_hint_zero, hnc, htz, if_neg (by simp; omega)]
    cases hu : u with
    | nil =>
      rw [prodPrimes_nil, sizeHintCore_one]
      rw [hu] at hlen
      simp at hlen
      exact ⟨z, z, rfl, by omega, by omega⟩
    | cons v u2 =>
      have hvu : v ∈ u := by rw [hu]; simp
      have hU3 : 3 ≤ prodPrimes u := by
        rw [hu, prodPrimes_cons]
        have h3 := three_le_primeAt v (hmem_u v hvu).1 (hmem_u v hvu).2
        have h1 : 1 ≤ prodPrimes u2 :=
          one_le_prodPrimes (fun y hy => (hmem_u y (by rw [hu]; simp [hy])).2)
        nlinarith
      have hlen_u : 1 ≤ u.length := by rw [hu]; simp
      have hcore := sizeHintCore_of_ne_one (by omega : prodPrimes u ≠ 1) z 1 3
        (by rw [get_prime_eq_primeAt 1 (by omega), primeAt_one])
      rw [hu] at hcore
      rw [hcore]
      refine ⟨z + 1, z + Nat.log 3 (prodPrimes (v :: u2)), rfl, by omega, ?_⟩
      have hpow : 3 ^ u.length ≤ prodPrimes u :=
        pow_le_prodPrimes (fun y hy =>
          three_le_primeAt y (hmem_u y hy).1 (hmem_u y hy).2)
      have hlog := (Nat.pow_le_iff_le_log (by omega) (by omega)).mp hpow
      rw [hu] at hlog hlen
      omega
  · rw [size_hint_pos hi0]
    cases hs : s with
    | nil =>
      have hch1 : chunk = 1 := by rw [hcs, hs, prodPrimes_nil]
      rw [hch1, sizeHintCore_one]
      exact ⟨0, 0, rfl, by simp [hs], by simp [hs]⟩
    | cons v s2 =>
      have hvm := hmem_s v (by rw [hs]; simp)
      have hi32 : i < 32 := by omega
      have hp2i := two_le_primeAt i hi32
      have hch2 : 2 ≤ chunk := by
        rw [hcs, hs, prodPrimes_cons]
        have h2 := two_le_primeAt v hvm.2
        have h1 : 1 ≤ prodPrimes s2 :=
          one_le_prodPrimes (fun y hy => (hmem_s y (by rw [hs]; simp [hy])).2)
        nlinarith
      rw [sizeHintCore_of_ne_one (by omega : chunk ≠ 1) 0 i (primeAt i)
        (get_prime_eq_primeAt i hi32)]
      refine ⟨1, Nat.log (primeAt i) chunk, by simp, by simp [hs], ?_⟩
      have hpow : primeAt i ^ s.length ≤ chunk := by
        rw [hcs]
        exact pow_le_prodPrimes (fun y hy =>
          primeAt_le_primeAt y (hmem_s y hy).2 i (hmem_s y hy).1)
      have hlog := (Nat.pow_le_iff_le_log (by omega) (by omega)).mp hpow
      rw [hs] at hlog
      simpa using hlog

theorem C7_witness :
    ∃ lo hi, size_hint 45 0 = (lo, some hi) ∧
      lo ≤ (iterToList 45 0).length ∧ (iterToList 45 0).length ≤ hi :=
  @C7_size_hint 45 0 [1, 1, 2] (by decide) (by decide)

end PrimeBagSpec
namespace PrimeBagSpec

theorem toNonZero_of_pos {x : Nat} (h : 1 ≤ x) : toNonZero x = x := by
  unfold toNonZero
  rw [if_neg (by simp; omega)]

theorem binarySearch_mem {l : List Nat} {v : Nat} (h : v ∈ l) :
    binarySearch l v = Except.ok (l.countP (fun x => x < v)) := by
  unfold binarySearch
  rw [if_pos h]

theorem binarySearch_not_mem {l : List Nat} {v : Nat} (h : v ∉ l) :
    binarySearch l v = Except.error (l.countP (fun x => x < v)) := by
  unfold binarySearch
  rw [if_neg h]

theorem walkDown_finds : ∀ (j0 chunk c m : Nat), m < j0 → j0 ≤ 32 → primeAt m ∣ c →
    (∀ j, m < j → j < j0 → ¬ primeAt j ∣ c) →
    walkDown chunk c j0 = some (m, toNonZero (chunk / primeAt m)) := by
  intro j0
  induction j0 with
  | zero => intro chunk c m hm; omega
  | succ j ih =>
    intro chunk c m hm hj0 hdvd hnot
    by_cases hjm : j = m
    · subst hjm
      simp only [walkDown]
      rw [get_prime_eq_primeAt j (by omega)]
      show (if (c % primeAt j == 0) = true then some (j, toNonZero (chunk / primeAt j))
        else walkDown chunk c j) = some (j, toNonZero (chunk / primeAt j))
      rw [if_pos (by simpa using Nat.dvd_iff_mod_eq_zero.mp hdvd)]
    · have hmj : m < j := by omega
      simp only [walkDown]
      rw [get_prime_eq_primeAt j (by omega)]
      show (if (c % primeAt j == 0) = true then some (j, toNonZero (chunk / primeAt j))
        else walkDown chunk c j) = some (m, toNonZero (chunk / primeAt m))
      rw [if_neg (by
        simp only [beq_iff_eq]
        exact fun h => hnot j hmj (by omega) (Nat.dvd_of_mod_eq_zero h))]
      exact ih chunk c m hmj (by omega) hdvd (fun j2 h1 h2 => hnot j2 h1 (by omega))

theorem nextBackSearch_ok {chunk c start off : Nat}
    (h : binarySearch (PRIMES.drop start) c = Except.ok off) :
    nextBackSearch chunk c start
      = some (off + start, toNonZero (chunk / (get_prime (off + start)).getD 1)) := by
  unfold nextBackSearch
  rw [h]

theorem nextBackSearch_err {chunk c start off : Nat}
    (h : binarySearch (PRIMES.drop start) c = Except.error off) :
    nextBackSearch chunk c start = walkDown chunk c (off + start) := by
  unfold nextBackSearch
  rw [h]

theorem nextBack_zero_eq {chunk : Nat} (h1 : chunk ≠ 1) :
    nextBack chunk 0 = (if toNonZero (chunk / 2 ^ trailingZeros chunk) == 1
      then some (0, toNonZero (chunk / 2))
      else nextBackSearch chunk (toNonZero (chunk / 2 ^ trailingZeros chunk)) 1) := by
  unfold nextBack
  rw [if_neg (by simpa using h1), if_pos (by simp)]

theorem nextBack_one {i : Nat} : nextBack 1 i = none := by
  unfold nextBack
  rw [if_pos (by simp)]

theorem backToList_eq_nil {chunk i : Nat} (h : nextBack chunk i = none) :
    backToList chunk i = [] := by
  rw [backToList, h]

theorem backToList_eq_cons {chunk i e c : Nat} (h : nextBack chunk i = some (e, c))
    (hlt : c < chunk) : backToList chunk i = e :: backToList c i := by
  rw [backToList, h]
  simp [hlt]

theorem nextBack_pow2 {L : Nat} (hL : 1 ≤ L) :
    nextBack (2 ^ L) 0 = some (0, 2 ^ (L - 1)) := by
  have h2L : 2 ≤ 2 ^ L := by
    calc (2 : Nat) = 2 ^ 1 := by norm_num
    _ ≤ 2 ^ L := Nat.pow_le_pow_right (by omega) hL
  rw [nextBack_zero_eq (by omega)]
  have htz : trailingZeros (2 ^ L) = L := by
    unfold trailingZeros
    have := divCount_pow_mul (p := 2) (m := 1) (by omega) (by omega) (by omega) L
    simpa using this
  rw [htz, Nat.div_self (show 0 < 2 ^ L by omega), if_pos (by simp [toNonZero])]
  have hdiv : 2 ^ L / 2 = 2 ^ (L - 1) := by
    rw [show L = (L - 1) + 1 by omega, pow_succ]
    exact Nat.mul_div_cancel _ (by omega)
  rw [hdiv, toNonZero_of_pos (Nat.one_le_two_pow)]

end PrimeBagSpec
namespace PrimeBagSpec

theorem primeAt_zero : primeAt 0 = 2 := by decide

theorem nextBack_last {t : List Nat} {m : Nat}
    (hsort : List.Sorted (· ≤ ·) (t ++ [m])) (hb : ∀ y ∈ t ++ [m], y < 32) :
    nextBack (prodPrimes (t ++ [m])) 0 = some (m, prodPrimes t) := by
  have hm32 : m < 32 := hb m (by simp)
  have hpm2 := two_le_primeAt m hm32
  have hpw := List.pairwise_append.mp (hsort : List.Pairwise (· ≤ ·) (t ++ [m]))
  have htle : ∀ x ∈ t, x ≤ m := fun x hx => hpw.2.2 x hx m (by simp)
  have htsort : List.Sorted (· ≤ ·) t := hpw.1
  have htb : ∀ y ∈ t, y < 32 := fun y hy => hb y (by simp [hy])
  by_cases hm0 : m = 0
  · subst hm0
    have ht0 : t = List.replicate t.length 0 :=
      List.eq_replicate_of_mem (fun b hb2 => by have := htle b hb2; omega)
    have hpt : prodPrimes t = 2 ^ t.length := by
      conv_lhs => rw [ht0]
      rw [prodPrimes_replicate, primeAt_zero]
    have hprod : prodPrimes (t ++ [0]) = 2 ^ (t.length + 1) := by
      rw [prodPrimes_append, hpt, prodPrimes_cons, prodPrimes_nil, primeAt_zero]
      ring
    rw [hprod, nextBack_pow2 (by omega)]
    rw [hpt]
    simp
  · obtain ⟨z, t2, hteq, ht2_1, ht2sort⟩ := sorted_zero_run t htsort
    have ht2b : ∀ y ∈ t2, 1 ≤ y ∧ y < 32 := fun y hy =>
      ⟨ht2_1 y hy, htb y (by rw [hteq]; exact List.mem_append_right _ hy)⟩
    have hub : ∀ y ∈ t2 ++ [m], 1 ≤ y ∧ y < 32 := by
      intro y hy
      rcases List.mem_append.mp hy with h | h
      · exact ht2b y h
      · simp at h
        subst h
        exact ⟨by omega, hm32⟩
    have hUodd : ¬ 2 ∣ prodPrimes (t2 ++ [m]) := not_two_dvd_prodPrimes hub
    have hU_eq : prodPrimes (t2 ++ [m]) = prodPrimes t2 * primeAt m := by
      rw [prodPrimes_append, prodPrimes_cons, prodPrimes_nil]
      ring
    have ht2pos : 1 ≤ prodPrimes t2 := one_le_prodPrimes (fun y hy => (ht2b y hy).2)
    have hU3 : 3 ≤ prodPrimes (t2 ++ [m]) := by
      rw [hU_eq]
      have := three_le_primeAt m (by omega) hm32
      nlinarith
    have hchunk_eq : prodPrimes (t ++ [m]) = 2 ^ z * prodPrimes (t2 ++ [m]) := by
      rw [show t ++ [m] = List.replicate z 0 ++ (t2 ++ [m]) by
        rw [hteq, List.append_assoc]]
      rw [prodPrimes_append, prodPrimes_replicate, primeAt_zero]
    have hchunk2 : 2 ≤ prodPrimes (t ++ [m]) := by
      rw [hchunk_eq]
      have h1z : 1 ≤ 2 ^ z := Nat.one_le_two_pow
      nlinarith
    have htz : trailingZeros (prodPrimes (t ++ [m])) = z := by
      unfold trailingZeros
      rw [hchunk_eq]
      exact divCount_pow_mul (by omega) (by omega) hUodd z
    have hncU : prodPrimes (t ++ [m]) / 2 ^ z = prodPrimes (t2 ++ [m]) := by
      rw [hchunk_eq]
      exact Nat.mul_div_cancel_left _ (Nat.pos_pow_of_pos z (by omega))
    have hpmdvdU : primeAt m ∣ prodPrimes (t2 ++ [m]) := by
      rw [hU_eq]
      exact dvd_mul_left _ _
    have hprod_t : prodPrimes t = 2 ^ z * prodPrimes t2 := by
      rw [hteq, prodPrimes_append, prodPrimes_replicate, primeAt_zero]
    have hdivq : prodPrimes (t ++ [m]) / primeAt m = prodPrimes t := by
      rw [hchunk_eq, hU_eq, ← Nat.mul_assoc, hprod_t]
      exact Nat.mul_div_cancel _ (by omega)
    have hptpos : 1 ≤ prodPrimes t := one_le_prodPrimes htb
    rw [nextBack_zero_eq (by omega)]
    rw [htz, hncU, toNonZero_of_pos (by omega)]
    rw [if_neg (by simp; omega)]
    by_cases ht2 : t2 = []
    · have hUpm : prodPrimes (t2 ++ [m]) = primeAt m := by
        rw [hU_eq, ht2, prodPrimes_nil, one_mul]
      have hbs := binarySearch_mem (primeAt_mem_drop_one m (by omega) hm32)
      rw [countP_lt_primeAt m (by omega) hm32] at hbs
      rw [hUpm, nextBackSearch_ok hbs]
      have hm1 : m - 1 + 1 = m := by omega
      rw [hm1, get_prime_eq_primeAt m hm32]
      simp only [Option.getD_some]
      rw [hdivq, toNonZero_of_pos hptpos]
    · obtain ⟨v, t2x, hvt⟩ := List.exists_cons_of_ne_nil ht2
      have hvb : 1 ≤ v ∧ v < 32 := ht2b v (by rw [hvt]; simp)
      have ht2prod3 : 3 ≤ prodPrimes t2 := by
        rw [hvt, prodPrimes_cons]
        have h3 := three_le_primeAt v hvb.1 hvb.2
        have h1 : 1 ≤ prodPrimes t2x :=
          one_le_prodPrimes (fun y hy => (ht2b y (by rw [hvt]; simp [hy])).2)
        nlinarith
      have hpm_lt_U : primeAt m < prodPrimes (t2 ++ [m]) := by
        rw [hU_eq]
        nlinarith
      have hU_not_prime : ¬ Nat.Prime (prodPrimes (t2 ++ [m])) := by
        intro hp
        rcases hp.eq_one_or_self_of_dvd (primeAt m) hpmdvdU with h | h
        · omega
        · omega
      have hU_notmem : prodPrimes (t2 ++ [m]) ∉ PRIMES.drop 1 := by
        intro hmem
        exact hU_not_prime (primes_all_prime _ (List.drop_subset _ _ hmem))
      rw [nextBackSearch_err (binarySearch_not_mem hU_notmem)]
      have hlen31 : (PRIMES.drop 1).length = 31 := by decide
      have hj1_le : (PRIMES.drop 1).countP (fun x => x < prodPrimes (t2 ++ [m])) ≤ 31 := by
        have := List.countP_le_length (p := fun x => decide (x < prodPrimes (t2 ++ [m])))
          (l := PRIMES.drop 1)
        omega
      have hm_le_j1 : m ≤ (PRIMES.drop 1).countP (fun x => x < prodPrimes (t2 ++ [m])) := by
        have hsplit := List.take_append_drop m (PRIMES.drop 1)
        have hcount_take :
            ((PRIMES.drop 1).take m).countP (fun x => x < prodPrimes (t2 ++ [m])) = m := by
          rw [List.countP_eq_length.mpr ?_]
          · rw [List.length_take]
            omega
          · intro a ha
            have h1 := take_drop_le_primeAt m (by omega) hm32 a ha
            simp only [decide_eq_true_eq]
            omega
        calc m = ((PRIMES.drop 1).take m).countP
              (fun x => x < prodPrimes (t2 ++ [m])) := hcount_take.symm
        _ ≤ _ := by
            conv_rhs => rw [← hsplit]
            rw [List.countP_append]
            omega
      have hnot : ∀ j, m < j →
          j < (PRIMES.drop 1).countP (fun x => x < prodPrimes (t2 ++ [m])) + 1 →
          ¬ primeAt j ∣ prodPrimes (t2 ++ [m]) := by
        intro j hmj hjb hdvd
        have hj32 : j < 32 := by omega
        obtain ⟨y, hy, hyeq⟩ := (prime_dvd_prodPrimes (primeAt_prime j hj32)
          (fun y hy => (hub y hy).2)).mp hdvd
        have hjy := primeAt_inj hj32 (hub y hy).2 hyeq
        rcases List.mem_append.mp hy with h | h
        · have hyt : y ∈ t := by
            rw [hteq]
            exact List.mem_append_right _ h
          have := htle y hyt
          omega
        · simp at h
          omega
      rw [walkDown_finds _ _ _ m (by omega) (by omega) hpmdvdU hnot]
      rw [hdivq, toNonZero_of_pos hptpos]

end PrimeBagSpec
namespace PrimeBagSpec

theorem backToList_prodPrimes :
    ∀ (n : Nat) (ys : List Nat), ys.length ≤ n → List.Sorted (· ≤ ·) ys →
      (∀ y ∈ ys, y < 32) → backToList (prodPrimes ys) 0 = ys.reverse := by
  intro n
  induction n with
  | zero =>
    intro ys hlen _ _
    have hnil : ys = [] := List.eq_nil_of_length_eq_zero (by omega)
    subst hnil
    rw [prodPrimes_nil]
    exact backToList_eq_nil nextBack_one
  | succ n ih =>
    intro ys hlen hsort hb
    rcases List.eq_nil_or_concat ys with hnil | ⟨t, m, heq⟩
    · subst hnil
      rw [prodPrimes_nil]
      exact backToList_eq_nil nextBack_one
    · rw [List.concat_eq_append] at heq
      subst heq
      have hm32 : m < 32 := hb m (by simp)
      have hpm2 := two_le_primeAt m hm32
      have htb : ∀ y ∈ t, y < 32 := fun y hy => hb y (by simp [hy])
      have hptpos : 1 ≤ prodPrimes t := one_le_prodPrimes htb
      have hprod : prodPrimes (t ++ [m]) = prodPrimes t * primeAt m := by
        rw [prodPrimes_append, prodPrimes_cons, prodPrimes_nil]
        ring
      have hlt : prodPrimes t < prodPrimes (t ++ [m]) := by
        rw [hprod]
        nlinarith
      rw [backToList_eq_cons (nextBack_last hsort hb) hlt]
      have htsort : List.Sorted (· ≤ ·) t :=
        (List.pairwise_append.mp (hsort : List.Pairwise (· ≤ ·) (t ++ [m]))).1
      have hlen_t : t.length ≤ n := by
        have : (t ++ [m]).length = t.length + 1 := by simp
        omega
      rw [ih t hlen_t htsort htb]
      rw [List.reverse_append]
      simp

/-- Claim C3: for every bag whose backing value factors completely over the prime
table, collecting the backward iterator (repeated `next_back`) and reversing the
result equals collecting the forward iterator: the backward iterator produces the
same multiset in descending prime-index order. -/
theorem C3_backward_reverse {chunk : Nat} {ys : List Nat}
    (hb : ∀ y ∈ ys, y < 32) (hc : chunk = prodPrimes ys) :
    (backToList chunk 0).reverse = iterToList chunk 0 := by
  have hperm : (List.insertionSort (· ≤ ·) ys).Perm ys := List.perm_insertionSort _ _
  have hsort : List.Sorted (· ≤ ·) (List.insertionSort (· ≤ ·) ys) :=
    List.sorted_insertionSort _ _
  set s := List.insertionSort (· ≤ ·) ys with hs_def
  have hmem_s : ∀ y ∈ s, y < 32 := fun y hy => hb y (hperm.mem_iff.mp hy)
  have hcs : chunk = prodPrimes s := by
    rw [hc]
    exact (prodPrimes_perm hperm).symm
  have hfwd : iterToList chunk 0 = s := by
    rw [hcs]
    exact iterToList_prodPrimes s 0 hsort (fun y hy => ⟨Nat.zero_le y, hmem_s y hy⟩)
  have hback : backToList chunk 0 = s.reverse := by
    rw [hcs]
    exact backToList_prodPrimes s.length s le_rfl hsort hmem_s
  rw [hfwd, hback, List.reverse_reverse]

theorem C3_witness :
    (backToList 66510826200 0).reverse = iterToList 66510826200 0 :=
  @C3_backward_reverse 66510826200 [0, 0, 0, 1, 1, 2, 2, 3, 3, 5, 7, 13, 19]
    (by decide) (by decide)

end PrimeBagSpec
